import Mathlib

set_option linter.unusedVariables false

/-! Shallow embedding of src/head_to_head_sorter.py, an interactive merge sort
driven by key presses.

The python functions embedded here:
* input_handler (lines 45-67): loops on term.inkey(); the left arrow returns
  the string left, the right arrow returns right, the key q (or Q) calls
  sys.exit(), and any other key is ignored and the loop continues.
* merge_with_preference (lines 88-112): the merge loop of the sort, advancing
  one of two cursors per decision obtained from input_handler, then appending
  the unconsumed remainder of either side.
* head_to_head_sorter (lines 69-86): recursive merge sort; a list of length
  exactly 1 is returned unchanged, otherwise the list is shuffled in place,
  split at len // 2, both halves are sorted recursively, and the results are
  merged.

Modelling choices:
* Key abstracts one key press: KEY_LEFT, KEY_RIGHT, the quit key q/Q, or any
  other (unrecognized) key press.
* The key presses the user will type form a finite list consumed left to
  right; an exhausted list models blocking forever at term.inkey(), the
  blocked outcome.
* sys.exit() is the outcome exited 0: python sys.exit() with no argument
  terminates the process with exit status 0.
* random.shuffle is an injected oracle shuf : Nat -> List A -> List A
  together with a counter threaded through the recursion, one fresh index per
  shuffle call, so every recursion level may be permuted independently;
  theorems assume only that each shuf n l is a permutation of l.
* python recursion is modelled with explicit fuel; the nofuel outcome means
  the recursion depth exceeded the fuel, which for fuel at least the length
  of the list only happens on inputs on which the python function never
  returns (the empty list).
* the ret outcome carries, besides the result list and the updated state, the
  number of input_handler invocations that returned a decision; this
  instrumentation is used by the comparison-count properties and is zero
  exactly when input_handler was never consulted.
-/

/-- One key press as classified by input_handler. -/
inductive Key where
  | key_left : Key
  | key_right : Key
  | key_q : Key
  | other : Char → Key
deriving DecidableEq

/-- A normal decision: the string left or the string right. -/
inductive Dir where
  | left : Dir
  | right : Dir
deriving DecidableEq

/-- The key press that produces a given decision. -/
def Dir.key : Dir → Key
  | .left => Key.key_left
  | .right => Key.key_right

/-- Outcome of one input_handler call: a decision together with the key
presses not yet consumed, process termination via sys.exit() carrying the
process exit status, or blocking forever on an exhausted key list. -/
inductive HRes where
  | dir : Dir → List Key → HRes
  | exited : Nat → HRes
  | blocked : HRes
deriving DecidableEq

/-- input_handler (source lines 45-67). -/
def input_handler : List Key → HRes
  | [] => .blocked
  | Key.key_left :: ks => .dir Dir.left ks
  | Key.key_right :: ks => .dir Dir.right ks
  | Key.key_q :: _ => .exited 0
  | Key.other _ :: ks => input_handler ks

/-- Outcome of merge_with_preference: the merged list, the key presses not
yet consumed and the number of input_handler invocations that returned a
decision; or propagation of sys.exit() or of blocking. -/
inductive MRes (α : Type) where
  | ret : List α → List Key → Nat → MRes α
  | exited : Nat → MRes α
  | blocked : MRes α
deriving DecidableEq

/-- merge_with_preference (source lines 88-112): while both cursors have
remaining elements, ask input_handler; on left append the left head, on right
append the right head; afterwards append the remainder of both sides. -/
def merge_with_preference {α : Type} : List Key → List α → List α → MRes α
  | ks, [], right => .ret right ks 0
  | ks, a :: l, [] => .ret (a :: l) ks 0
  | ks, a :: l, b :: r =>
    match input_handler ks with
    | .blocked => .blocked
    | .exited code => .exited code
    | .dir Dir.left ks' =>
      match merge_with_preference ks' l (b :: r) with
      | .ret out rest c => .ret (a :: out) rest (c + 1)
      | e => e
    | .dir Dir.right ks' =>
      match merge_with_preference ks' (a :: l) r with
      | .ret out rest c => .ret (b :: out) rest (c + 1)
      | e => e
termination_by ks l r => l.length + r.length

/-- State threaded through the sorter: the key presses not yet consumed and
the index of the next random.shuffle call. -/
structure St where
  keys : List Key
  sidx : Nat
deriving DecidableEq

/-- Outcome of head_to_head_sorter: the sorted list, the updated state and
the number of input_handler invocations that returned a decision; or
propagation of sys.exit(), of blocking, or fuel exhaustion (the python
function recurses past any given depth on that input). -/
inductive SRes (α : Type) where
  | ret : List α → St → Nat → SRes α
  | exited : Nat → SRes α
  | blocked : SRes α
  | nofuel : SRes α
deriving DecidableEq

/-- head_to_head_sorter (source lines 69-86): return lists of length exactly
1 unchanged; otherwise shuffle, split at len // 2 of the shuffled list,
recursively sort both halves, and merge them with merge_with_preference. -/
def head_to_head_sorter {α : Type} (shuf : Nat → List α → List α) :
    Nat → St → List α → SRes α
  | 0, _, _ => .nofuel
  | fuel + 1, st, items =>
    if items.length = 1 then .ret items st 0
    else
      let shuffled := shuf st.sidx items
      let mid := shuffled.length / 2
      match head_to_head_sorter shuf fuel ⟨st.keys, st.sidx + 1⟩ (shuffled.take mid) with
      | .ret left_sorted st1 c1 =>
        match head_to_head_sorter shuf fuel st1 (shuffled.drop mid) with
        | .ret right_sorted st2 c2 =>
          match merge_with_preference st2.keys left_sorted right_sorted with
          | .ret out rest c3 => .ret out ⟨rest, st2.sidx⟩ (c1 + c2 + c3)
          | .exited code => .exited code
          | .blocked => .blocked
        | .exited code => .exited code
        | .blocked => .blocked
        | .nofuel => .nofuel
      | .exited code => .exited code
      | .blocked => .blocked
      | .nofuel => .nofuel

/-- Modelled from the spec: the scripted decision source for one merge step.
Given the comparator lt of a strict total order, it yields the key presses an
lt-consistent decision source produces while merge_with_preference merges l
and r — the left arrow exactly when the current left head precedes the
current right head — paired with the list that merge then builds. -/
def merge_script {α : Type} (lt : α → α → Bool) : List α → List α → List Key × List α
  | [], r => ([], r)
  | a :: l, [] => ([], a :: l)
  | a :: l, b :: r =>
    if lt a b then
      let p := merge_script lt l (b :: r)
      (Key.key_left :: p.1, a :: p.2)
    else
      let p := merge_script lt (a :: l) r
      (Key.key_right :: p.1, b :: p.2)
termination_by l r => l.length + r.length

/-- Modelled from the spec: the whole scripted run of the sorter under the
lt-consistent decision source: the key presses the source types during the
sort, the next shuffle index, and the resulting list (none when the fuel
bound is insufficient). -/
def script_run {α : Type} (lt : α → α → Bool) (shuf : Nat → List α → List α) :
    Nat → Nat → List α → Option (List Key × Nat × List α)
  | 0, _, _ => none
  | fuel + 1, sidx, items =>
    if items.length = 1 then some ([], sidx, items)
    else
      let shuffled := shuf sidx items
      let mid := shuffled.length / 2
      match script_run lt shuf fuel (sidx + 1) (shuffled.take mid) with
      | none => none
      | some (kl, s1, outl) =>
        match script_run lt shuf fuel s1 (shuffled.drop mid) with
        | none => none
        | some (kr, s2, outr) =>
          let p := merge_script lt outl outr
          some (kl ++ kr ++ p.1, s2, p.2)

/-- True when the first recognized key press in the list is the quit key,
i.e. the decision source signals cancellation at the next comparison. -/
def quit_first : List Key → Bool
  | [] => false
  | Key.key_q :: _ => true
  | Key.other _ :: ks => quit_first ks
  | Key.key_left :: _ => false
  | Key.key_right :: _ => false

/-- A completed merge returns a permutation of the concatenation of its two
inputs (strong induction on the total length). -/
theorem merge_ret_perm {α : Type} (n : Nat) :
    ∀ (ks : List Key) (l r out : List α) (rest : List Key) (c : Nat),
      l.length + r.length ≤ n →
      merge_with_preference ks l r = .ret out rest c → out.Perm (l ++ r) := by
  induction n with
  | zero =>
    intro ks l r out rest c hn h
    have hl : l = [] := List.length_eq_zero.mp (by omega)
    subst hl
    simp [merge_with_preference] at h
    simp [h.1]
  | succ n ih =>
    intro ks l r out rest c hn h
    cases l with
    | nil =>
      simp [merge_with_preference] at h
      simp [h.1]
    | cons a l =>
      cases r with
      | nil =>
        simp [merge_with_preference] at h
        simp [h.1]
      | cons b r =>
        rw [merge_with_preference] at h
        cases hih : input_handler ks with
        | blocked => simp only [hih] at h; exact absurd h (by simp)
        | exited code => simp only [hih] at h; exact absurd h (by simp)
        | dir d ks' =>
          simp only [hih] at h
          cases d with
          | left =>
            cases hm : merge_with_preference ks' l (b :: r) with
            | ret out' rest' c' =>
              simp only [hm] at h
              simp only [MRes.ret.injEq] at h
              obtain ⟨hout, hrest, hc⟩ := h
              have hperm := ih ks' l (b :: r) out' rest' c' (by simp at hn ⊢; omega) hm
              rw [← hout]
              exact List.Perm.cons a hperm
            | exited code => simp only [hm] at h; exact absurd h (by simp)
            | blocked => simp only [hm] at h; exact absurd h (by simp)
          | right =>
            cases hm : merge_with_preference ks' (a :: l) r with
            | ret out' rest' c' =>
              simp only [hm] at h
              simp only [MRes.ret.injEq] at h
              obtain ⟨hout, hrest, hc⟩ := h
              have hperm := ih ks' (a :: l) r out' rest' c' (by simp at hn ⊢; omega) hm
              rw [← hout]
              exact (hperm.cons b).trans List.perm_middle.symm
            | exited code => simp only [hm] at h; exact absurd h (by simp)
            | blocked => simp only [hm] at h; exact absurd h (by simp)

/-- A completed merge performs at most (length of left) + (length of right)
minus one comparisons. -/
theorem merge_ret_count {α : Type} (n : Nat) :
    ∀ (ks : List Key) (l r out : List α) (rest : List Key) (c : Nat),
      l.length + r.length ≤ n →
      merge_with_preference ks l r = .ret out rest c →
      c ≤ l.length + r.length - 1 := by
  induction n with
  | zero =>
    intro ks l r out rest c hn h
    have hl : l = [] := List.length_eq_zero.mp (by omega)
    subst hl
    simp [merge_with_preference] at h
    omega
  | succ n ih =>
    intro ks l r out rest c hn h
    cases l with
    | nil =>
      simp [merge_with_preference] at h
      omega
    | cons a l =>
      cases r with
      | nil =>
        simp [merge_with_preference] at h
        omega
      | cons b r =>
        rw [merge_with_preference] at h
        cases hih : input_handler ks with
        | blocked => simp only [hih] at h; exact absurd h (by simp)
        | exited code => simp only [hih] at h; exact absurd h (by simp)
        | dir d ks' =>
          simp only [hih] at h
          cases d with
          | left =>
            cases hm : merge_with_preference ks' l (b :: r) with
            | ret out' rest' c' =>
              simp only [hm] at h
              simp only [MRes.ret.injEq] at h
              obtain ⟨hout, hrest, hc⟩ := h
              have hcount := ih ks' l (b :: r) out' rest' c' (by simp at hn ⊢; omega) hm
              simp at hcount ⊢
              omega
            | exited code => simp only [hm] at h; exact absurd h (by simp)
            | blocked => simp only [hm] at h; exact absurd h (by simp)
          | right =>
            cases hm : merge_with_preference ks' (a :: l) r with
            | ret out' rest' c' =>
              simp only [hm] at h
              simp only [MRes.ret.injEq] at h
              obtain ⟨hout, hrest, hc⟩ := h
              have hcount := ih ks' (a :: l) r out' rest' c' (by simp at hn ⊢; omega) hm
              simp at hcount ⊢
              omega
            | exited code => simp only [hm] at h; exact absurd h (by simp)
            | blocked => simp only [hm] at h; exact absurd h (by simp)

/-- Whenever head_to_head_sorter returns a list, that list is a permutation
of the input, provided every shuffle oracle call permutes its argument. -/
theorem sorter_ret_perm {α : Type} (shuf : Nat → List α → List α)
    (hshuf : ∀ n l, (shuf n l).Perm l) :
    ∀ (fuel : Nat) (st : St) (items out : List α) (st' : St) (c : Nat),
      head_to_head_sorter shuf fuel st items = .ret out st' c → out.Perm items := by
  intro fuel
  induction fuel with
  | zero =>
    intro st items out st' c h
    exact absurd h (by simp [head_to_head_sorter])
  | succ fuel ih =>
    intro st items out st' c h
    simp only [head_to_head_sorter] at h
    by_cases h1 : items.length = 1
    · rw [if_pos h1] at h
      cases h
      exact List.Perm.refl items
    · rw [if_neg h1] at h
      cases hL : head_to_head_sorter shuf fuel ⟨st.keys, st.sidx + 1⟩
          ((shuf st.sidx items).take ((shuf st.sidx items).length / 2)) with
      | ret outl st1 c1 =>
        simp only [hL] at h
        cases hR : head_to_head_sorter shuf fuel st1
            ((shuf st.sidx items).drop ((shuf st.sidx items).length / 2)) with
        | ret outr st2 c2 =>
          simp only [hR] at h
          cases hM : merge_with_preference st2.keys outl outr with
          | ret res rest c3 =>
            simp only [hM, SRes.ret.injEq] at h
            obtain ⟨rfl, rfl, rfl⟩ := h
            have pl := ih _ _ outl st1 c1 hL
            have pr := ih _ _ outr st2 c2 hR
            have pm := merge_ret_perm (outl.length + outr.length) st2.keys outl outr
              res rest c3 (Nat.le_refl _) hM
            refine pm.trans ?_
            refine ((pl.append pr).trans ?_)
            rw [List.take_append_drop]
            exact hshuf st.sidx items
          | exited code => simp only [hM] at h; exact absurd h (by simp)
          | blocked => simp only [hM] at h; exact absurd h (by simp)
        | exited code => simp only [hR] at h; exact absurd h (by simp)
        | blocked => simp only [hR] at h; exact absurd h (by simp)
        | nofuel => simp only [hR] at h; exact absurd h (by simp)
      | exited code => simp only [hL] at h; exact absurd h (by simp)
      | blocked => simp only [hL] at h; exact absurd h (by simp)
      | nofuel => simp only [hL] at h; exact absurd h (by simp)

/-- Claim C1: for every input list on which the sort returns,
head_to_head_sorter returns a permutation of its input: the same multiset of
items, so the same length, with no item created, dropped, or duplicated;
this holds for every key-press stream and every shuffle oracle whose calls
permute their argument. -/
theorem c1_sort_returns_permutation {α : Type} (shuf : Nat → List α → List α)
    (hshuf : ∀ n l, (shuf n l).Perm l) (fuel : Nat) (st : St)
    (items out : List α) (st' : St) (c : Nat)
    (h : head_to_head_sorter shuf fuel st items = .ret out st' c) :
    out.Perm items :=
  sorter_ret_perm shuf hshuf fuel st items out st' c h

/-- Witness for claim C1's theorem at a concrete completing run. -/
theorem c1_sort_returns_permutation_witness : ([1, 2] : List Nat).Perm [2, 1] :=
  c1_sort_returns_permutation (fun _ l => l) (fun _ l => List.Perm.refl l) 2
    ⟨[Key.key_right], 0⟩ [2, 1] [1, 2] ⟨[], 1⟩ 1
    (by simp [head_to_head_sorter, merge_with_preference, input_handler])

/-- When the first recognized key press is the quit key, input_handler calls
sys.exit() and never returns a decision. -/
theorem quit_first_input_handler :
    ∀ (ks : List Key), quit_first ks = true → input_handler ks = .exited 0 := by
  intro ks
  induction ks with
  | nil => intro h; simp [quit_first] at h
  | cons k ks ih =>
    intro h
    cases k with
    | key_left => simp [quit_first] at h
    | key_right => simp [quit_first] at h
    | key_q => rfl
    | other ch =>
      rw [quit_first] at h
      simpa [input_handler] using ih h

/-- When the first recognized key press is the quit key and both sides still
have elements, the merge propagates sys.exit() and produces no list. -/
theorem merge_quit {α : Type} (ks : List Key) (hq : quit_first ks = true)
    (a : α) (l : List α) (b : α) (r : List α) :
    merge_with_preference ks (a :: l) (b :: r) = .exited 0 := by
  simp [merge_with_preference, quit_first_input_handler ks hq]

/-- Under a quit-first key stream the sorter can only return a list when the
input has length 1, in which case it is returned before any comparison: the
call count is 0 and the state, key presses included, is untouched. -/
theorem sorter_quit_ret {α : Type} (shuf : Nat → List α → List α) (ks : List Key)
    (hq : quit_first ks = true) :
    ∀ (fuel sidx : Nat) (items out : List α) (st' : St) (c : Nat),
      head_to_head_sorter shuf fuel ⟨ks, sidx⟩ items = .ret out st' c →
      items.length = 1 ∧ out = items ∧ st' = ⟨ks, sidx⟩ ∧ c = 0 := by
  intro fuel
  induction fuel with
  | zero =>
    intro sidx items out st' c h
    exact absurd h (by simp [head_to_head_sorter])
  | succ fuel ih =>
    intro sidx items out st' c h
    simp only [head_to_head_sorter] at h
    by_cases h1 : items.length = 1
    · rw [if_pos h1] at h
      cases h
      exact ⟨h1, rfl, rfl, rfl⟩
    · rw [if_neg h1] at h
      cases hL : head_to_head_sorter shuf fuel ⟨ks, sidx + 1⟩
          ((shuf sidx items).take ((shuf sidx items).length / 2)) with
      | ret outl st1 c1 =>
        simp only [hL] at h
        obtain ⟨hlen1, houtl, hst1, hc1⟩ := ih (sidx + 1) _ outl st1 c1 hL
        subst hst1
        cases hR : head_to_head_sorter shuf fuel ⟨ks, sidx + 1⟩
            ((shuf sidx items).drop ((shuf sidx items).length / 2)) with
        | ret outr st2 c2 =>
          simp only [hR] at h
          obtain ⟨hlen2, houtr, hst2, hc2⟩ := ih (sidx + 1) _ outr st2 c2 hR
          subst hst2
          rcases outl with _ | ⟨a, l'⟩
          · rw [← houtl] at hlen1; simp at hlen1
          · rcases outr with _ | ⟨b, r'⟩
            · rw [← houtr] at hlen2; simp at hlen2
            · simp only [merge_quit ks hq a l' b r'] at h
              exact absurd h (by simp)
        | exited code => simp only [hR] at h; exact absurd h (by simp)
        | blocked => simp only [hR] at h; exact absurd h (by simp)
        | nofuel => simp only [hR] at h; exact absurd h (by simp)
      | exited code => simp only [hL] at h; exact absurd h (by simp)
      | blocked => simp only [hL] at h; exact absurd h (by simp)
      | nofuel => simp only [hL] at h; exact absurd h (by simp)

/-- Claim C5: when the decision source signals cancellation (the first
recognized key press in the remaining stream is the quit key), the comparator
gateway does not return a decision but calls sys.exit(); any merge step still
comparing propagates that exit so no partial merged list is produced; and the
sorter can then only return a list if no comparison was ever needed (input of
length 1), returning it with zero comparator invocations and the key stream
untouched — so once a comparison is reached the whole sort terminates with no
result and no further comparisons. -/
theorem c5_cancellation_aborts_sort (ks : List Key) (hq : quit_first ks = true) :
    input_handler ks = .exited 0 ∧
    (∀ (α : Type) (a : α) (l : List α) (b : α) (r : List α),
      merge_with_preference ks (a :: l) (b :: r) = .exited 0) ∧
    (∀ (α : Type) (shuf : Nat → List α → List α) (fuel sidx : Nat)
      (items out : List α) (st' : St) (c : Nat),
      head_to_head_sorter shuf fuel ⟨ks, sidx⟩ items = .ret out st' c →
      items.length = 1 ∧ out = items ∧ st' = ⟨ks, sidx⟩ ∧ c = 0) :=
  ⟨quit_first_input_handler ks hq,
   fun α a l b r => merge_quit ks hq a l b r,
   fun α shuf fuel sidx items out st' c h =>
     sorter_quit_ret shuf ks hq fuel sidx items out st' c h⟩

/-- Witness for claim C5's theorem at a concrete quit-first stream. -/
theorem c5_cancellation_aborts_sort_witness :
    input_handler [Key.other 'x', Key.key_q] = .exited 0 ∧
    merge_with_preference [Key.other 'x', Key.key_q] [1] [2] = (.exited 0 : MRes Nat) ∧
    ([5] : List Nat).length = 1 := by
  have h := c5_cancellation_aborts_sort [Key.other 'x', Key.key_q] (by decide)
  exact ⟨h.1, h.2.1 Nat 1 [] 2 [],
    (h.2.2 Nat (fun _ l => l) 1 0 [5] [5] ⟨[Key.other 'x', Key.key_q], 0⟩ 0
      (by simp [head_to_head_sorter])).1⟩

/-- Under a quit-first key stream, a sort of two or more items (with enough
fuel for the recursion depth) propagates sys.exit() with status 0: the first
comparison reached terminates the whole sort. -/
theorem sorter_quit_exited {α : Type} (shuf : Nat → List α → List α)
    (hshuf : ∀ n l, (shuf n l).Perm l) (ks : List Key) (hq : quit_first ks = true) :
    ∀ (fuel sidx : Nat) (items : List α),
      2 ≤ items.length → items.length ≤ fuel →
      head_to_head_sorter shuf fuel ⟨ks, sidx⟩ items = .exited 0 := by
  intro fuel
  induction fuel with
  | zero => intro sidx items h2 hf; omega
  | succ fuel ih =>
    intro sidx items h2 hf
    simp only [head_to_head_sorter]
    rw [if_neg (by omega)]
    have hlen : (shuf sidx items).length = items.length := (hshuf sidx items).length_eq
    have hmidle : (shuf sidx items).length / 2 ≤ (shuf sidx items).length :=
      Nat.div_le_self _ _
    have htake : ((shuf sidx items).take ((shuf sidx items).length / 2)).length
        = (shuf sidx items).length / 2 := by
      rw [List.length_take]; omega
    have hdrop : ((shuf sidx items).drop ((shuf sidx items).length / 2)).length
        = (shuf sidx items).length - (shuf sidx items).length / 2 :=
      List.length_drop _ _
    have hmid1 : 1 ≤ (shuf sidx items).length / 2 := by rw [hlen]; omega
    by_cases hL1 : ((shuf sidx items).take ((shuf sidx items).length / 2)).length = 1
    · obtain ⟨x, hx⟩ := List.length_eq_one.mp hL1
      have hLret : head_to_head_sorter shuf fuel ⟨ks, sidx + 1⟩
          ((shuf sidx items).take ((shuf sidx items).length / 2))
          = .ret ((shuf sidx items).take ((shuf sidx items).length / 2)) ⟨ks, sidx + 1⟩ 0 := by
        rcases fuel with _ | fuel'
        · omega
        · rw [hx]; simp [head_to_head_sorter]
      simp only [hLret]
      by_cases hR1 : ((shuf sidx items).drop ((shuf sidx items).length / 2)).length = 1
      · obtain ⟨y, hy⟩ := List.length_eq_one.mp hR1
        have hRret : head_to_head_sorter shuf fuel ⟨ks, sidx + 1⟩
            ((shuf sidx items).drop ((shuf sidx items).length / 2))
            = .ret ((shuf sidx items).drop ((shuf sidx items).length / 2)) ⟨ks, sidx + 1⟩ 0 := by
          rcases fuel with _ | fuel'
          · omega
          · rw [hy]; simp [head_to_head_sorter]
        simp only [hRret]
        rw [hx, hy]
        simp only [merge_quit ks hq x [] y []]
      · have hR2 : 2 ≤ ((shuf sidx items).drop ((shuf sidx items).length / 2)).length := by
          omega
        have hRex := ih (sidx + 1) _ hR2 (by omega)
        simp only [hRex]
    · have hL2 : 2 ≤ ((shuf sidx items).take ((shuf sidx items).length / 2)).length := by
        omega
      have hLex := ih (sidx + 1) _ hL2 (by omega)
      simp only [hLex]

/-- Counterexample to claim C6 as stated: cancelling on the first comparison
of a two-item sort terminates the process through sys.exit() with exit
status 0, not with a distinct, non-zero status. -/
theorem c6_nonzero_status_cex :
    head_to_head_sorter (fun _ l => l) 2 ⟨[Key.key_q], 0⟩ [1, 2] = .exited 0 ∧
      ¬ ∃ code, code ≠ 0 ∧
        head_to_head_sorter (fun _ l => l) 2 ⟨[Key.key_q], 0⟩ [1, 2] = .exited code := by
  have h : head_to_head_sorter (fun _ l => l) 2 ⟨[Key.key_q], 0⟩ [1, 2]
      = (.exited 0 : SRes Nat) := by
    simp [head_to_head_sorter, merge_with_preference, input_handler]
  refine ⟨h, ?_⟩
  rintro ⟨code, hcode, heq⟩
  rw [h] at heq
  injection heq with h0
  exact hcode h0.symm

/-- Claim C6 as amended: when the decision source signals cancellation at a
comparison (quit is the first recognized key press), a sort of two or more
items never returns a value; the process terminates through sys.exit() with
exit status 0, the same status as normal completion, and no sorted output
exists to be printed or saved. -/
theorem c6_cancel_exits_zero {α : Type} (shuf : Nat → List α → List α)
    (hshuf : ∀ n l, (shuf n l).Perm l) (ks : List Key) (hq : quit_first ks = true)
    (fuel sidx : Nat) (items : List α) (h2 : 2 ≤ items.length)
    (hf : items.length ≤ fuel) :
    head_to_head_sorter shuf fuel ⟨ks, sidx⟩ items = .exited 0 :=
  sorter_quit_exited shuf hshuf ks hq fuel sidx items h2 hf

/-- Witness for the amended claim C6 at a concrete cancelled run. -/
theorem c6_cancel_exits_zero_witness :
    head_to_head_sorter (fun _ l => l) 3 ⟨[Key.other 'z', Key.key_q], 0⟩ [1, 2, 3]
      = (.exited 0 : SRes Nat) :=
  c6_cancel_exits_zero (fun _ l => l) (fun _ l => List.Perm.refl l)
    [Key.other 'z', Key.key_q] (by decide) 3 0 [1, 2, 3] (by decide) (by decide)

/-- An input_handler call that returns a decision consumed a (possibly empty)
run of unrecognized key presses followed by exactly the directional key of
the returned decision: the first recognized non-quit key press determines the
result. -/
theorem input_handler_dir_split :
    ∀ (ks : List Key) (d : Dir) (rest : List Key), input_handler ks = .dir d rest →
      ∃ pre, (∀ k ∈ pre, ∃ ch, k = Key.other ch) ∧ ks = pre ++ d.key :: rest := by
  intro ks
  induction ks with
  | nil =>
    intro d rest h
    exact absurd h (by simp [input_handler])
  | cons k ks ih =>
    intro d rest h
    cases k with
    | key_left =>
      injection h with h1 h2
      subst h1
      subst h2
      exact ⟨[], by simp, by simp [Dir.key]⟩
    | key_right =>
      injection h with h1 h2
      subst h1
      subst h2
      exact ⟨[], by simp, by simp [Dir.key]⟩
    | key_q => exact absurd h (by simp [input_handler])
    | other ch =>
      rw [input_handler] at h
      obtain ⟨pre, hall, hks⟩ := ih d rest h
      refine ⟨Key.other ch :: pre, ?_, by rw [hks]; rfl⟩
      intro k hk
      rcases List.mem_cons.mp hk with hk | hk
      · exact ⟨ch, hk⟩
      · exact hall k hk

/-- Claim C7: input_handler ignores every key press that is not one of the
three recognized signals and keeps scanning, and whenever it returns a
decision that decision is determined by the first recognized non-quit key
press in the stream: the consumed prefix is unrecognized key presses followed
by that directional key. -/
theorem c7_unrecognized_ignored :
    (∀ (ch : Char) (ks : List Key),
      input_handler (Key.other ch :: ks) = input_handler ks) ∧
    (∀ (ks : List Key) (d : Dir) (rest : List Key), input_handler ks = .dir d rest →
      ∃ pre, (∀ k ∈ pre, ∃ ch, k = Key.other ch) ∧ ks = pre ++ d.key :: rest) :=
  ⟨fun ch ks => rfl, input_handler_dir_split⟩

/-- Witness for claim C7's theorem at a concrete stream with one unrecognized
key press before the left arrow. -/
theorem c7_unrecognized_ignored_witness :
    input_handler [Key.other 'x', Key.key_left] = input_handler [Key.key_left] ∧
    ∃ pre, (∀ k ∈ pre, ∃ ch, k = Key.other ch) ∧
      [Key.other 'x', Key.key_left] = pre ++ Dir.left.key :: [] :=
  ⟨c7_unrecognized_ignored.1 'x' [Key.key_left],
   c7_unrecognized_ignored.2 [Key.other 'x', Key.key_left] Dir.left [] rfl⟩

/-- Claim C8: for every single item x, head_to_head_sorter on the one-element
list returns it unchanged with zero comparator invocations: the call count is
0 and the state, including the unconsumed key presses, is returned untouched,
so input_handler is never called. -/
theorem c8_singleton_unchanged {α : Type} (shuf : Nat → List α → List α)
    (fuel : Nat) (st : St) (x : α) :
    head_to_head_sorter shuf (fuel + 1) st [x] = .ret [x] st 0 := by
  simp [head_to_head_sorter]

/-- Claim C3 (code bug): on the empty list the recursive case is taken (the
base check is length = 1 only), both halves are again empty, and the
recursion never bottoms out: for every fuel bound the model exhausts its
fuel, i.e. head_to_head_sorter never returns on the empty list instead of
returning the empty list. -/
theorem c3_empty_diverges {α : Type} (shuf : Nat → List α → List α)
    (hshuf : ∀ n l, (shuf n l).Perm l) :
    ∀ (fuel : Nat) (st : St), head_to_head_sorter shuf fuel st ([] : List α) = .nofuel := by
  intro fuel
  induction fuel with
  | zero => intro st; rfl
  | succ fuel ih =>
    intro st
    have h0 : shuf st.sidx [] = ([] : List α) := (hshuf st.sidx []).eq_nil
    simp [head_to_head_sorter, h0, ih]

/-- Witness for claim C3's theorem at the identity shuffle and fuel 5. -/
theorem c3_empty_diverges_witness :
    head_to_head_sorter (fun _ l => l) 5 ⟨[], 0⟩ ([] : List Nat) = .nofuel :=
  c3_empty_diverges (fun _ l => l) (fun _ l => List.Perm.refl l) 5 ⟨[], 0⟩

/-- Counterexample to claim C4 as stated: merging the sorted sub-lists [1]
and [2, 3] with a first decision of left completes after a single comparator
invocation, not len(left) + len(right) - 1 = 2 of them. -/
theorem c4_exact_count_cex :
    merge_with_preference [Key.key_left] [1] [2, 3] = .ret [1, 2, 3] [] 1 ∧
      (1 : Nat) ≠ [1].length + [2, 3].length - 1 := by
  constructor
  · simp [merge_with_preference, input_handler]
  · decide

/-- Claim C4 as amended: every merge step that completes normally performs at
most len(left) + len(right) - 1 comparator invocations. -/
theorem c4_count_at_most {α : Type} (ks : List Key) (l r out : List α)
    (rest : List Key) (c : Nat)
    (h : merge_with_preference ks l r = .ret out rest c) :
    c ≤ l.length + r.length - 1 :=
  merge_ret_count (l.length + r.length) ks l r out rest c (Nat.le_refl _) h

/-- Witness for the amended claim C4 at a concrete completed merge. -/
theorem c4_count_at_most_witness :
    (1 : Nat) ≤ [1].length + [2, 3].length - 1 :=
  c4_count_at_most [Key.key_left] [1] [2, 3] [1, 2, 3] [] 1
    (by simp [merge_with_preference, input_handler])

/-- Feeding the key presses of merge_script to merge_with_preference makes
the merge complete with the scripted output, consuming exactly those key
presses, one comparator invocation per key press. -/
theorem merge_script_merge {α : Type} (lt : α → α → Bool) (n : Nat) :
    ∀ (l r : List α) (tail : List Key),
      l.length + r.length ≤ n →
      merge_with_preference ((merge_script lt l r).1 ++ tail) l r
        = .ret (merge_script lt l r).2 tail (merge_script lt l r).1.length := by
  induction n with
  | zero =>
    intro l r tail hn
    have hl : l = [] := List.length_eq_zero.mp (by omega)
    subst hl
    simp [merge_script, merge_with_preference]
  | succ n ih =>
    intro l r tail hn
    cases l with
    | nil => simp [merge_script, merge_with_preference]
    | cons a l =>
      cases r with
      | nil => simp [merge_script, merge_with_preference]
      | cons b r =>
        cases hab : lt a b with
        | true =>
          have ihh := ih l (b :: r) tail (by simp at hn ⊢; omega)
          simp [merge_script, hab, merge_with_preference, input_handler, ihh]
        | false =>
          have ihh := ih (a :: l) r tail (by simp at hn ⊢; omega)
          simp [merge_script, hab, merge_with_preference, input_handler, ihh]

/-- The scripted merge output is a permutation of the two inputs together. -/
theorem merge_script_perm {α : Type} (lt : α → α → Bool) (l r : List α) :
    (merge_script lt l r).2.Perm (l ++ r) :=
  merge_ret_perm (l.length + r.length) ((merge_script lt l r).1 ++ []) l r
    (merge_script lt l r).2 [] (merge_script lt l r).1.length (Nat.le_refl _)
    (merge_script_merge lt (l.length + r.length) l r [] (Nat.le_refl _))

/-- In a transitive irreflexive comparator, a strict preference one way rules
out a strict preference the other way. -/
theorem lt_asymm_of {α : Type} (lt : α → α → Bool)
    (htrans : ∀ a b c, lt a b = true → lt b c = true → lt a c = true)
    (hirr : ∀ a, lt a a = false) (p q : α) (h : lt p q = true) : lt q p = false := by
  by_contra hqp
  rw [Bool.not_eq_false] at hqp
  have hq := htrans q p q hqp h
  rw [hirr q] at hq
  exact absurd hq (by simp)

/-- Transitivity of the reflexive closure through a strict step. -/
theorem le_through_lt {α : Type} (lt : α → α → Bool)
    (htrans : ∀ a b c, lt a b = true → lt b c = true → lt a c = true)
    (p q x : α) (hpq : lt p q = true) (hxq : lt x q = false) : lt x p = false := by
  by_contra hxp
  rw [Bool.not_eq_false] at hxp
  rw [htrans x p q hxp hpq] at hxq
  exact absurd hxq (by simp)

/-- Transitivity of the reflexive closure, using totality. -/
theorem le_trans_of_total {α : Type} (lt : α → α → Bool)
    (htrans : ∀ a b c, lt a b = true → lt b c = true → lt a c = true)
    (htotal : ∀ a b : α, a = b ∨ lt a b = true ∨ lt b a = true)
    (a b x : α) (hab : lt a b = false) (hxa : lt x a = false) : lt x b = false := by
  by_contra hxb
  rw [Bool.not_eq_false] at hxb
  rcases htotal a x with rfl | h | h
  · rw [hxb] at hab; exact absurd hab (by simp)
  · rw [htrans a x b h hxb] at hab; exact absurd hab (by simp)
  · rw [h] at hxa; exact absurd hxa (by simp)

/-- Merging two lists sorted for the comparator with merge_script yields a
sorted list, for lt a transitive, irreflexive, total comparator. -/
theorem merge_script_sorted {α : Type} (lt : α → α → Bool)
    (htrans : ∀ a b c, lt a b = true → lt b c = true → lt a c = true)
    (hirr : ∀ a, lt a a = false)
    (htotal : ∀ a b : α, a = b ∨ lt a b = true ∨ lt b a = true) (n : Nat) :
    ∀ l r : List α, l.length + r.length ≤ n →
      List.Sorted (fun a b => lt b a = false) l →
      List.Sorted (fun a b => lt b a = false) r →
      List.Sorted (fun a b => lt b a = false) (merge_script lt l r).2 := by
  induction n with
  | zero =>
    intro l r hn hl hr
    have hl0 : l = [] := List.length_eq_zero.mp (by omega)
    subst hl0
    simpa [merge_script] using hr
  | succ n ih =>
    intro l r hn hl hr
    cases l with
    | nil => simpa [merge_script] using hr
    | cons a l =>
      cases r with
      | nil => simpa [merge_script] using hl
      | cons b r =>
        rw [List.sorted_cons] at hl hr
        obtain ⟨ha, hl'⟩ := hl
        obtain ⟨hb, hr'⟩ := hr
        cases hab : lt a b with
        | true =>
          have hms : (merge_script lt (a :: l) (b :: r)).2
              = a :: (merge_script lt l (b :: r)).2 := by
            simp [merge_script, hab]
          rw [hms, List.sorted_cons]
          refine ⟨?_, ih l (b :: r) (by simp at hn ⊢; omega)
            hl' (List.sorted_cons.mpr ⟨hb, hr'⟩)⟩
          intro x hx
          rcases List.mem_append.mp
              ((merge_script_perm lt l (b :: r)).mem_iff.mp hx) with hx1 | hx2
          · exact ha x hx1
          · rcases List.mem_cons.mp hx2 with rfl | hx3
            · exact lt_asymm_of lt htrans hirr a x hab
            · exact le_through_lt lt htrans a b x hab (hb x hx3)
        | false =>
          have hms : (merge_script lt (a :: l) (b :: r)).2
              = b :: (merge_script lt (a :: l) r).2 := by
            simp [merge_script, hab]
          rw [hms, List.sorted_cons]
          refine ⟨?_, ih (a :: l) r (by simp at hn ⊢; omega)
            (List.sorted_cons.mpr ⟨ha, hl'⟩) hr'⟩
          intro x hx
          rcases List.mem_append.mp
              ((merge_script_perm lt (a :: l) r).mem_iff.mp hx) with hx1 | hx2
          · rcases List.mem_cons.mp hx1 with rfl | hx3
            · exact hab
            · exact le_trans_of_total lt htrans htotal a b x hab (ha x hx3)
          · exact hb x hx2

/-- Running head_to_head_sorter on exactly the key presses produced by the
scripted lt-consistent decision source (followed by any further key presses)
completes and returns the scripted output, consuming exactly the scripted
key presses, one comparator invocation each. -/
theorem script_run_sorter {α : Type} (lt : α → α → Bool)
    (shuf : Nat → List α → List α) :
    ∀ (fuel sidx : Nat) (items : List α) (ks : List Key) (s2 : Nat) (out : List α),
      script_run lt shuf fuel sidx items = some (ks, s2, out) →
      ∀ tail, head_to_head_sorter shuf fuel ⟨ks ++ tail, sidx⟩ items
        = .ret out ⟨tail, s2⟩ ks.length := by
  intro fuel
  induction fuel with
  | zero =>
    intro sidx items ks s2 out h
    exact absurd h (by simp [script_run])
  | succ fuel ih =>
    intro sidx items ks s2 out h tail
    simp only [script_run] at h
    simp only [head_to_head_sorter]
    by_cases h1 : items.length = 1
    · rw [if_pos h1] at h
      rw [if_pos h1]
      simp only [Option.some.injEq, Prod.mk.injEq] at h
      obtain ⟨hks, hs2, hout⟩ := h
      subst hks
      subst hs2
      subst hout
      simp
    · rw [if_neg h1] at h
      rw [if_neg h1]
      cases hA : script_run lt shuf fuel (sidx + 1)
          ((shuf sidx items).take ((shuf sidx items).length / 2)) with
      | none => simp only [hA] at h; exact absurd h (by simp)
      | some trip =>
        obtain ⟨kl, s1, outl⟩ := trip
        simp only [hA] at h
        cases hB : script_run lt shuf fuel s1
            ((shuf sidx items).drop ((shuf sidx items).length / 2)) with
        | none => simp only [hB] at h; exact absurd h (by simp)
        | some trip2 =>
          obtain ⟨kr, s22, outr⟩ := trip2
          simp only [hB] at h
          simp only [Option.some.injEq, Prod.mk.injEq] at h
          obtain ⟨hks, hs2, hout⟩ := h
          subst hks
          subst hs2
          subst hout
          have hLs := ih (sidx + 1) _ kl s1 outl hA
            (kr ++ ((merge_script lt outl outr).1 ++ tail))
          have hRs := ih s1 _ kr s22 outr hB ((merge_script lt outl outr).1 ++ tail)
          have hM := merge_script_merge lt (outl.length + outr.length) outl outr tail
            (Nat.le_refl _)
          simp only [List.append_assoc, hLs, hRs, hM, List.length_append]
          rw [Nat.add_assoc]

/-- The scripted run's output is a permutation of the input and is sorted
for the comparator, given a transitive irreflexive total lt and a shuffle
oracle whose calls permute their argument. -/
theorem script_run_out {α : Type} (lt : α → α → Bool)
    (htrans : ∀ a b c, lt a b = true → lt b c = true → lt a c = true)
    (hirr : ∀ a, lt a a = false)
    (htotal : ∀ a b : α, a = b ∨ lt a b = true ∨ lt b a = true)
    (shuf : Nat → List α → List α) (hshuf : ∀ n l, (shuf n l).Perm l) :
    ∀ (fuel sidx : Nat) (items : List α) (ks : List Key) (s2 : Nat) (out : List α),
      script_run lt shuf fuel sidx items = some (ks, s2, out) →
      out.Perm items ∧ List.Sorted (fun a b => lt b a = false) out := by
  intro fuel
  induction fuel with
  | zero =>
    intro sidx items ks s2 out h
    exact absurd h (by simp [script_run])
  | succ fuel ih =>
    intro sidx items ks s2 out h
    simp only [script_run] at h
    by_cases h1 : items.length = 1
    · rw [if_pos h1] at h
      simp only [Option.some.injEq, Prod.mk.injEq] at h
      obtain ⟨hks, hs2, hout⟩ := h
      subst hout
      obtain ⟨x, hx⟩ := List.length_eq_one.mp h1
      exact ⟨List.Perm.refl _, by rw [hx]; simp⟩
    · rw [if_neg h1] at h
      cases hA : script_run lt shuf fuel (sidx + 1)
          ((shuf sidx items).take ((shuf sidx items).length / 2)) with
      | none => simp only [hA] at h; exact absurd h (by simp)
      | some trip =>
        obtain ⟨kl, s1, outl⟩ := trip
        simp only [hA] at h
        cases hB : script_run lt shuf fuel s1
            ((shuf sidx items).drop ((shuf sidx items).length / 2)) with
        | none => simp only [hB] at h; exact absurd h (by simp)
        | some trip2 =>
          obtain ⟨kr, s22, outr⟩ := trip2
          simp only [hB] at h
          simp only [Option.some.injEq, Prod.mk.injEq] at h
          obtain ⟨hks, hs2, hout⟩ := h
          subst hout
          obtain ⟨pl, sl⟩ := ih (sidx + 1) _ kl s1 outl hA
          obtain ⟨pr, sr⟩ := ih s1 _ kr s22 outr hB
          constructor
          · refine (merge_script_perm lt outl outr).trans ?_
            refine (pl.append pr).trans ?_
            rw [List.take_append_drop]
            exact hshuf sidx items
          · exact merge_script_sorted lt htrans hirr htotal
              (outl.length + outr.length) outl outr (Nat.le_refl _) sl sr

/-- Claim C2: if the decision source answers every comparison according to a
fixed strict total order lt — pressing the left arrow exactly when the left
item precedes the right item, as merge_script does — then whenever the
scripted run completes, head_to_head_sorter on those key presses (followed by
anything) returns the input sorted by that order: a permutation of the input
that is sorted for lt-precedes-or-equal, regardless of the shuffle oracle
(any oracle whose calls permute their argument) and of the rest of the key
stream. Because an lt-consistent decision source is deterministic, the
scripted key-press trace is the only trace such a source can produce on the
run, so every lt-consistent source is covered. -/
theorem c2_consistent_comparator_sorts {α : Type} (lt : α → α → Bool)
    (htrans : ∀ a b c, lt a b = true → lt b c = true → lt a c = true)
    (hirr : ∀ a, lt a a = false)
    (htotal : ∀ a b : α, a = b ∨ lt a b = true ∨ lt b a = true)
    (shuf : Nat → List α → List α) (hshuf : ∀ n l, (shuf n l).Perm l)
    (fuel sidx : Nat) (items : List α) (ks : List Key) (s2 : Nat) (out : List α)
    (h : script_run lt shuf fuel sidx items = some (ks, s2, out)) (tail : List Key) :
    head_to_head_sorter shuf fuel ⟨ks ++ tail, sidx⟩ items
      = .ret out ⟨tail, s2⟩ ks.length ∧
    out.Perm items ∧ List.Sorted (fun a b => lt a b = true ∨ a = b) out := by
  obtain ⟨hperm, hsorted⟩ := script_run_out lt htrans hirr htotal shuf hshuf
    fuel sidx items ks s2 out h
  refine ⟨script_run_sorter lt shuf fuel sidx items ks s2 out h tail, hperm, ?_⟩
  refine hsorted.imp ?_
  intro a b hba
  rcases htotal a b with h' | h' | h'
  · exact Or.inr h'
  · exact Or.inl h'
  · rw [h'] at hba; exact absurd hba (by simp)

/-- Witness for claim C2's theorem on the list [2, 1, 3] with the natural
order on numbers and the identity shuffle. -/
theorem c2_consistent_comparator_sorts_witness :
    head_to_head_sorter (fun _ l => l) 3
        ⟨[Key.key_left, Key.key_right, Key.key_left], 0⟩ [2, 1, 3]
      = .ret [1, 2, 3] ⟨[], 2⟩ 3 ∧
    ([1, 2, 3] : List Nat).Perm [2, 1, 3] ∧
    List.Sorted (fun a b : Nat => decide (a < b) = true ∨ a = b) [1, 2, 3] := by
  have h := c2_consistent_comparator_sorts (fun a b : Nat => decide (a < b))
    (by intro a b c hab hbc; simp at hab hbc ⊢; omega)
    (by intro a; simp)
    (by
      intro a b
      rcases Nat.lt_trichotomy a b with h' | h' | h'
      · exact Or.inr (Or.inl (by simpa using h'))
      · exact Or.inl h'
      · exact Or.inr (Or.inr (by simpa using h')))
    (fun _ l => l) (fun _ l => List.Perm.refl l) 3 0 [2, 1, 3]
    [Key.key_left, Key.key_right, Key.key_left] 2 [1, 2, 3]
    (by simp [script_run, merge_script]) []
  simpa using h

/-- Claim C9: sorting is idempotent under a consistent comparator. For any
two completing scripted runs — the first sorting L, the second sorting the
first run's output — with possibly different shuffle oracles (each call a
permutation) and shuffle choices, head_to_head_sorter completes both runs
and the second returns exactly the first run's output: re-sorting changes
nothing. -/
theorem c9_sort_idempotent {α : Type} (lt : α → α → Bool)
    (htrans : ∀ a b c, lt a b = true → lt b c = true → lt a c = true)
    (hirr : ∀ a, lt a a = false)
    (htotal : ∀ a b : α, a = b ∨ lt a b = true ∨ lt b a = true)
    (shuf1 shuf2 : Nat → List α → List α)
    (hshuf1 : ∀ n l, (shuf1 n l).Perm l) (hshuf2 : ∀ n l, (shuf2 n l).Perm l)
    (f1 i1 f2 i2 : Nat) (L o1 o2 : List α) (ks1 ks2 : List Key) (s1 s2 : Nat)
    (h1 : script_run lt shuf1 f1 i1 L = some (ks1, s1, o1))
    (h2 : script_run lt shuf2 f2 i2 o1 = some (ks2, s2, o2)) :
    head_to_head_sorter shuf1 f1 ⟨ks1, i1⟩ L = .ret o1 ⟨[], s1⟩ ks1.length ∧
    head_to_head_sorter shuf2 f2 ⟨ks2, i2⟩ o1 = .ret o2 ⟨[], s2⟩ ks2.length ∧
    o2 = o1 := by
  have r1 := script_run_sorter lt shuf1 f1 i1 L ks1 s1 o1 h1 []
  have r2 := script_run_sorter lt shuf2 f2 i2 o1 ks2 s2 o2 h2 []
  rw [List.append_nil] at r1 r2
  obtain ⟨p1, so1⟩ := script_run_out lt htrans hirr htotal shuf1 hshuf1 f1 i1 L ks1 s1 o1 h1
  obtain ⟨p2, so2⟩ := script_run_out lt htrans hirr htotal shuf2 hshuf2 f2 i2 o1 ks2 s2 o2 h2
  refine ⟨r1, r2, ?_⟩
  haveI : IsAntisymm α (fun a b => lt b a = false) := ⟨by
    intro a b hab hba
    rcases htotal a b with h' | h' | h'
    · exact h'
    · rw [h'] at hba; exact absurd hba (by simp)
    · rw [h'] at hab; exact absurd hab (by simp)⟩
  exact List.eq_of_perm_of_sorted p2 so2 so1

/-- Witness for claim C9's theorem: re-sorting the sorted output [1, 2, 3]
of the run on [2, 1, 3] returns [1, 2, 3] again. -/
theorem c9_sort_idempotent_witness :
    head_to_head_sorter (fun _ l => l) 3
        ⟨[Key.key_left, Key.key_right, Key.key_left], 0⟩ [2, 1, 3]
      = .ret [1, 2, 3] ⟨[], 2⟩ 3 ∧
    head_to_head_sorter (fun _ l => l) 3 ⟨[Key.key_left, Key.key_left], 0⟩ [1, 2, 3]
      = .ret [1, 2, 3] ⟨[], 2⟩ 2 ∧
    ([1, 2, 3] : List Nat) = [1, 2, 3] := by
  have h := c9_sort_idempotent (fun a b : Nat => decide (a < b))
    (by intro a b c hab hbc; simp at hab hbc ⊢; omega)
    (by intro a; simp)
    (by
      intro a b
      rcases Nat.lt_trichotomy a b with h' | h' | h'
      · exact Or.inr (Or.inl (by simpa using h'))
      · exact Or.inl h'
      · exact Or.inr (Or.inr (by simpa using h')))
    (fun _ l => l) (fun _ l => l)
    (fun _ l => List.Perm.refl l) (fun _ l => List.Perm.refl l)
    3 0 3 0 [2, 1, 3] [1, 2, 3] [1, 2, 3]
    [Key.key_left, Key.key_right, Key.key_left] [Key.key_left, Key.key_left] 2 2
    (by simp [script_run, merge_script])
    (by simp [script_run, merge_script])
  simpa using h

/-- Arithmetic helper: squaring is monotone enough that the per-half key
budget fits inside the whole budget. -/
theorem sq_add_le (a n : Nat) (h : a ≤ n) : a * a + n ≤ n * n + a := by
  obtain ⟨d, rfl⟩ := Nat.le.dest h
  rcases Nat.eq_zero_or_pos d with rfl | hd
  · simp
  · nlinarith [hd]

/-- Arithmetic helper: the two half budgets plus one merge fit inside the
whole budget. -/
theorem sq_split (a b : Nat) (ha : 1 ≤ a) (hb : 1 ≤ b) :
    a * a + b * b + (a + b) ≤ (a + b) * (a + b) + 1 := by
  nlinarith [ha, hb]

/-- On a stream of only directional key presses that is long enough, the
merge completes, consuming one key press per comparison (the unconsumed
stream is a drop of the original). -/
theorem merge_dirs_ret {α : Type} (n : Nat) :
    ∀ (ks : List Key) (l r : List α),
      (∀ k ∈ ks, k = Key.key_left ∨ k = Key.key_right) →
      l.length + r.length ≤ n →
      l.length + r.length ≤ ks.length + 1 →
      ∃ out c, merge_with_preference ks l r = .ret out (ks.drop c) c := by
  induction n with
  | zero =>
    intro ks l r hdir hn hks
    have hl : l = [] := List.length_eq_zero.mp (by omega)
    subst hl
    exact ⟨r, 0, by simp [merge_with_preference]⟩
  | succ n ih =>
    intro ks l r hdir hn hks
    cases l with
    | nil => exact ⟨r, 0, by simp [merge_with_preference]⟩
    | cons a l =>
      cases r with
      | nil => exact ⟨a :: l, 0, by simp [merge_with_preference]⟩
      | cons b r =>
        cases ks with
        | nil => simp only [List.length_cons, List.length_nil] at hks; omega
        | cons k ks =>
          have hdir' : ∀ k' ∈ ks, k' = Key.key_left ∨ k' = Key.key_right :=
            fun k' hk' => hdir k' (List.mem_cons_of_mem k hk')
          rcases hdir k (List.mem_cons_self k ks) with rfl | rfl
          · obtain ⟨out, c, hrec⟩ := ih ks l (b :: r) hdir'
              (by simp only [List.length_cons] at hn ⊢; omega)
              (by simp only [List.length_cons] at hks ⊢; omega)
            refine ⟨a :: out, c + 1, ?_⟩
            rw [List.drop_succ_cons]
            simp [merge_with_preference, input_handler, hrec]
          · obtain ⟨out, c, hrec⟩ := ih ks (a :: l) r hdir'
              (by simp only [List.length_cons] at hn ⊢; omega)
              (by simp only [List.length_cons] at hks ⊢; omega)
            refine ⟨b :: out, c + 1, ?_⟩
            rw [List.drop_succ_cons]
            simp [merge_with_preference, input_handler, hrec]

/-- On a non-empty input, with fuel at least the length, a stream of only
directional key presses of quadratic length, and any permuting shuffle
oracle, the sorter completes: it returns a list, consuming one key press per
comparison, and makes fewer than length-squared comparisons. -/
theorem sorter_dirs_ret {α : Type} (shuf : Nat → List α → List α)
    (hshuf : ∀ n l, (shuf n l).Perm l) :
    ∀ (fuel sidx : Nat) (items : List α) (ks : List Key),
      (∀ k ∈ ks, k = Key.key_left ∨ k = Key.key_right) →
      1 ≤ items.length → items.length ≤ fuel →
      items.length * items.length ≤ ks.length + items.length →
      ∃ out c s, head_to_head_sorter shuf fuel ⟨ks, sidx⟩ items
          = .ret out ⟨ks.drop c, s⟩ c ∧
        c + items.length ≤ items.length * items.length := by
  intro fuel
  induction fuel with
  | zero => intro sidx items ks hdir h1 hf hks; omega
  | succ fuel ih =>
    intro sidx items ks hdir h1 hf hks
    by_cases hone : items.length = 1
    · exact ⟨items, 0, sidx, by simp [head_to_head_sorter, hone], by simp [hone]⟩
    · have h2 : 2 ≤ items.length := by omega
      have hlen : (shuf sidx items).length = items.length := (hshuf sidx items).length_eq
      have htakelen : ((shuf sidx items).take ((shuf sidx items).length / 2)).length
          = (shuf sidx items).length / 2 := by
        rw [List.length_take]
        exact min_eq_left (Nat.div_le_self _ _)
      have hdroplen : ((shuf sidx items).drop ((shuf sidx items).length / 2)).length
          = (shuf sidx items).length - (shuf sidx items).length / 2 :=
        List.length_drop _ _
      have ha1 : 1 ≤ (shuf sidx items).length / 2 := by omega
      have hb1 : 1 ≤ (shuf sidx items).length - (shuf sidx items).length / 2 := by omega
      have hab : (shuf sidx items).length / 2
          + ((shuf sidx items).length - (shuf sidx items).length / 2)
          = items.length := by omega
      have hPa := sq_add_le ((shuf sidx items).length / 2) items.length (by omega)
      obtain ⟨outl, c1, s1, hL, hc1⟩ := ih (sidx + 1)
        ((shuf sidx items).take ((shuf sidx items).length / 2)) ks hdir
        (by omega) (by omega)
        (by rw [htakelen]; linarith [hPa, hks])
      rw [htakelen] at hc1
      have hc1ks : c1 ≤ ks.length := by linarith [hPa, hks, hc1]
      have hks2len : (ks.drop c1).length + c1 = ks.length := by
        rw [List.length_drop]; omega
      have hdir2 : ∀ k ∈ ks.drop c1, k = Key.key_left ∨ k = Key.key_right :=
        fun k hk => hdir k (List.drop_subset _ _ hk)
      have hPb := sq_add_le
        ((shuf sidx items).length - (shuf sidx items).length / 2) items.length (by omega)
      have hsplit := sq_split ((shuf sidx items).length / 2)
        ((shuf sidx items).length - (shuf sidx items).length / 2) ha1 hb1
      rw [hab] at hsplit
      obtain ⟨outr, c2, s2, hR, hc2⟩ := ih s1
        ((shuf sidx items).drop ((shuf sidx items).length / 2)) (ks.drop c1) hdir2
        (by omega) (by omega)
        (by rw [hdroplen]; linarith [hsplit, hks, hc1, ha1, hks2len])
      rw [hdroplen] at hc2
      have hc2ks : c2 ≤ (ks.drop c1).length := by
        linarith [hsplit, hks, hc1, hc2, ha1, hks2len]
      have hks3len : ((ks.drop c1).drop c2).length + c2 = (ks.drop c1).length := by
        rw [List.length_drop]; omega
      have hdir3 : ∀ k ∈ (ks.drop c1).drop c2, k = Key.key_left ∨ k = Key.key_right :=
        fun k hk => hdir2 k (List.drop_subset _ _ hk)
      have hol : outl.length = (shuf sidx items).length / 2 := by
        rw [(sorter_ret_perm shuf hshuf fuel _ _ _ _ _ hL).length_eq, htakelen]
      have hor : outr.length
          = (shuf sidx items).length - (shuf sidx items).length / 2 := by
        rw [(sorter_ret_perm shuf hshuf fuel _ _ _ _ _ hR).length_eq, hdroplen]
      obtain ⟨outm, c3, hM⟩ := merge_dirs_ret (outl.length + outr.length)
        ((ks.drop c1).drop c2) outl outr hdir3 (Nat.le_refl _)
        (by
          rw [hol, hor]
          linarith [hab, hsplit, hks, hc1, hc2, hks2len, hks3len, ha1, hb1])
      have hc3 := merge_ret_count (outl.length + outr.length) ((ks.drop c1).drop c2)
        outl outr outm _ c3 (Nat.le_refl _) hM
      have hc3' : c3 + 1 ≤ items.length := by
        rw [hol, hor] at hc3
        omega
      refine ⟨outm, c1 + c2 + c3, s2, ?_, ?_⟩
      · have hdd : ((ks.drop c1).drop c2).drop c3 = ks.drop (c1 + c2 + c3) := by
          rw [List.drop_drop, List.drop_drop]
          congr 1
          omega
        simp only [head_to_head_sorter]
        rw [if_neg hone]
        simp only [hL, hR, hM, hdd]
      · linarith [hc1, hc2, hc3', hsplit, hab]

/-- Claim C10: for every item list of length at least 1 and every stream of
left/right decisions long enough (any stream of only directional key presses
of at least quadratic length stands in for an infinite decision sequence),
head_to_head_sorter terminates with fuel covering the recursion depth: in the
recursive case both halves are strictly shorter and non-empty, each merge
decision advances one cursor, and the sort returns a result. -/
theorem c10_sort_terminates {α : Type} (shuf : Nat → List α → List α)
    (hshuf : ∀ n l, (shuf n l).Perm l) (fuel sidx : Nat) (items : List α)
    (ks : List Key) (hdir : ∀ k ∈ ks, k = Key.key_left ∨ k = Key.key_right)
    (h1 : 1 ≤ items.length) (hf : items.length ≤ fuel)
    (hks : items.length * items.length ≤ ks.length + items.length) :
    ∃ out c s, head_to_head_sorter shuf fuel ⟨ks, sidx⟩ items
      = .ret out ⟨ks.drop c, s⟩ c := by
  obtain ⟨out, c, s, hrun, hbound⟩ :=
    sorter_dirs_ret shuf hshuf fuel sidx items ks hdir h1 hf hks
  exact ⟨out, c, s, hrun⟩

/-- Witness for claim C10's theorem on a two-item list with two directional
key presses available. -/
theorem c10_sort_terminates_witness :
    ∃ out c s, head_to_head_sorter (fun _ l => l) 2
        ⟨[Key.key_left, Key.key_left], 0⟩ ([5, 7] : List Nat)
      = .ret out ⟨[Key.key_left, Key.key_left].drop c, s⟩ c :=
  c10_sort_terminates (fun _ l => l) (fun _ l => List.Perm.refl l) 2 0 [5, 7]
    [Key.key_left, Key.key_left] (by decide) (by decide) (by decide) (by decide)
